import Mathlib

/-!
Verification of the incremental similarity index of `simserver.py`
(`SimIndex`, `merge_sim`, `SimServer.find_similar`).

The embedding is shallow and executable:

* Python dicts become association lists with unique keys; `dget`, `dset`,
  `ddel` mirror `d[k]`, `d[k] = v` and `del d[k]` (the last two only on the
  success path; a `KeyError` is modelled by `Except`, the error payload being
  the state at the moment the exception escapes).
* Similarity scores are integers (the index only compares, sorts and takes
  absolute values of scores, so the float carrier is abstracted to `Int`);
  document vectors are integer lists and gensim's `Similarity` scoring is
  modelled as the dot product, with vectors taken to be already normalized so
  that the `normalize` toggling in the source is the identity in the model.
* `numpy.argsort(sims)[::-1]` and Python's stable `sorted` are both modelled
  by a stable insertion sort (`ssort`); numpy's tie order is unspecified
  (quicksort), the model fixes a deterministic descending-stable order and no
  theorem below depends on the order of tied scores.
* `Similarity.iter_chunks` over the permanent index enumerates all stored
  vectors in position order, which the model does directly.
-/

namespace SimServer

abbrev DocId := String
abbrev Score := Int
abbrev Vec := List Int

/-- The similarity score of two (already normalized, see the file comment)
vectors: their dot product. -/
def ip (u v : Vec) : Score := (u.zipWith (· * ·) v).sum

/-- Python dict lookup `d.get(k)`: the value of the first (only) entry with
key `k`. -/
def dget {α β : Type} [DecidableEq α] (k : α) : List (α × β) → Option β
  | [] => none
  | (k', v) :: d => if k' = k then some v else dget k d

/-- Python membership test `k in d`. -/
def dmem {α β : Type} [DecidableEq α] (k : α) (d : List (α × β)) : Bool :=
  (dget k d).isSome

/-- Python dict assignment `d[k] = v`: overwrite in place, or append a new
entry. -/
def dset {α β : Type} [DecidableEq α] (k : α) (v : β) : List (α × β) → List (α × β)
  | [] => [(k, v)]
  | (k', v') :: d => if k' = k then (k, v) :: d else (k', v') :: dset k v d

/-- Python dict deletion `del d[k]` on the success path: remove the entry with
key `k` (the caller has checked membership; a missing key is a `KeyError`,
modelled at the call sites). -/
def ddel {α β : Type} [DecidableEq α] (k : α) : List (α × β) → List (α × β)
  | [] => []
  | (k', v') :: d => if k' = k then d else (k', v') :: ddel k d

/-- Stable insertion of `x` into a sorted list: `x` goes before the first
element `y` with `le x y` false... more precisely `x` is placed before the
first `y` such that `le x y` holds, keeping earlier-input elements of equal
rank in front. This models the stability of Python's `sorted`. -/
def sinsert {α : Type} (le : α → α → Bool) (x : α) : List α → List α
  | [] => [x]
  | y :: ys => if le x y then x :: y :: ys else y :: sinsert le x ys

/-- Stable sort (insertion sort), modelling Python's `sorted(..., key=...)`
and the order produced by `numpy.argsort`. -/
def ssort {α : Type} (le : α → α → Bool) : List α → List α
  | [] => []
  | x :: xs => sinsert le x (ssort le xs)

/-- SimIndex.TOP_SIMS. -/
def TOP_SIMS : Nat := 100

/-- SimIndex.SHARD_SIZE (storage-layout constant; the model enumerates chunks
as single positions, so the constant does not influence observable results). -/
def SHARD_SIZE : Nat := 50000

/-- Positions `0 .. sims.length - 1` ordered by descending score, ties kept in
ascending-position order: the model of `numpy.argsort(sims)[::-1]`. -/
def argsortDesc (sims : List Score) : List Nat :=
  ssort (fun i j => decide (sims.getD j 0 ≤ sims.getD i 0)) (List.range sims.length)

/-- The collection loop of `SimIndex.sims2scores`: walk positions in
descending-score order, keep only positions with a live `pos2id` entry,
stop as soon as `TOP_SIMS` results have been collected. -/
def collect (pos2id : List (Nat × DocId)) (sims : List Score) :
    List Nat → List (DocId × Score) → List (DocId × Score)
  | [], acc => acc
  | p :: ps, acc =>
    match dget p pos2id with
    | some docid =>
      let acc' := acc ++ [(docid, sims.getD p 0)]
      if acc'.length = TOP_SIMS then acc' else collect pos2id sims ps acc'
    | none => collect pos2id sims ps acc

/-- `SimIndex.sims2scores`: take absolute values of the raw scores, then rank
positions by descending (absolute) score, translating live positions back to
document ids and clipping at `TOP_SIMS`. -/
def sims2scores (pos2id : List (Nat × DocId)) (rawSims : List Score) :
    List (DocId × Score) :=
  let sims := rawSims.map (fun x => |x|)
  collect pos2id sims (argsortDesc sims) []

/-- `merge_sim`: concatenate old and new (id, score) pairs, stable-sort by
descending score, clip at `TOP_SIMS`. -/
def merge_sim (oldsims newsims : List (DocId × Score)) : List (DocId × Score) :=
  (ssort (fun a b => decide (b.2 ≤ a.2)) (oldsims ++ newsims)).take TOP_SIMS

/-- The mutable state of `SimIndex`. `store` is the permanent `qindex`
(the sequence of stored vectors in position order); `length` is
`self.length`. -/
structure SimIndex where
  id2pos : List (DocId × Nat)
  pos2id : List (Nat × DocId)
  id2sims : List (DocId × List (DocId × Score))
  precompute : Bool
  length : Nat
  store : List Vec
  deriving Repr, DecidableEq

namespace SimIndex

/-- `SimIndex.__init__` (the empty `qindex` is created lazily in the source;
in the model the store simply starts empty). -/
def init (precompute : Bool) : SimIndex :=
  { id2pos := [], pos2id := [], id2sims := [], precompute := precompute
    length := 0, store := [] }

/-- One iteration of the loop body of `SimIndex.updateids`. -/
def updateids1 (s : SimIndex) (docid : DocId) : SimIndex :=
  let s :=
    match dget docid s.id2pos with
    | some oldpos => { s with pos2id := ddel oldpos s.pos2id }
    | none => s
  { s with
    id2pos := dset docid s.length s.id2pos
    pos2id := dset s.length docid s.pos2id
    length := s.length + 1 }

/-- `SimIndex.updateids`. -/
def updateids (s : SimIndex) (docids : List DocId) : SimIndex :=
  docids.foldl updateids1 s

/-- The rebuild `dict((v, k) for k, v in id2pos.iteritems())` in
`SimIndex.delete`. -/
def invert (d : List (DocId × Nat)) : List (Nat × DocId) :=
  d.foldl (fun acc kv => dset kv.2 kv.1 acc) []

/-- The deletion loop of `SimIndex.delete`: `del self.id2pos[docid]` for each
id in order; a missing id raises `KeyError`, leaving the partially updated
`id2pos` behind (the error payload). -/
def deleteLoop : List DocId → List (DocId × Nat) → Except (List (DocId × Nat)) (List (DocId × Nat))
  | [], m => .ok m
  | docid :: rest, m =>
    if dmem docid m then deleteLoop rest (ddel docid m)
    else .error m

/-- `SimIndex.delete`: remove each id from `id2pos` (KeyError on a missing
id), rebuild `pos2id` as the inverse, then assert equal cardinality
(AssertionError leaves the already-reassigned `pos2id` behind). -/
def delete (s : SimIndex) (docids : List DocId) : Except SimIndex SimIndex :=
  match deleteLoop docids s.id2pos with
  | .error m => .error { s with id2pos := m }
  | .ok m =>
    if (invert m).length = m.length then .ok { s with id2pos := m, pos2id := invert m }
    else .error { s with id2pos := m, pos2id := invert m }

/-- One iteration of the old-document update pass of
`SimIndex.index_documents` (precompute branch), at stored position `pos`:
`docid = self.pos2id[pos]` (KeyError on a ghost slot), then
`sims = tmpindex[chunk-row]` — the similarities of the stored vector at
`pos` against the new batch, indexed by temporary position — passed through
`sims2scores` (which translates those temporary positions via the permanent
`pos2id`, exactly as the source does), then
`self.id2sims[docid] = merge_sim(self.id2sims[docid], sims)` (KeyError if the
document has no cache entry). -/
def oldPass1 (newVecs : List Vec) (s : SimIndex) (pos : Nat) : Except SimIndex SimIndex :=
  match dget pos s.pos2id with
  | none => .error s
  | some docid =>
    let row := newVecs.map (fun nv => ip (s.store.getD pos []) nv)
    let newsims := sims2scores s.pos2id row
    match dget docid s.id2sims with
    | none => .error s
    | some oldsims =>
      .ok { s with id2sims := dset docid (merge_sim oldsims newsims) s.id2sims }

/-- The old-document update pass: iterate the permanent store's positions in
order (the flattening of `iter_chunks`), applying `oldPass1`. -/
def oldPass (s : SimIndex) (newVecs : List Vec) : Except SimIndex SimIndex :=
  (List.range s.store.length).foldlM (oldPass1 newVecs) s

/-- The new-document precompute pass: for each new document (in batch order),
score its vector against the whole updated permanent store and store the
ranked list in `id2sims`. -/
def newPass (s : SimIndex) (pairs : List (DocId × Vec)) : SimIndex :=
  pairs.foldl
    (fun st pr =>
      let row := st.store.map (fun sv => ip pr.2 sv)
      { st with id2sims := dset pr.1 (sims2scores st.pos2id row) st.id2sims })
    s

/-- `SimIndex.index_documents`, taking the already-vectorized fresh batch
(`fresh_docs` keys paired with the vectors `model.docs2vecs` produces for
them). Without precompute: append the vectors and update the id mappings.
With precompute: run the old-document update pass (which can raise on ghost
slots), then append the vectors, update the id mappings, and run the
new-document precompute pass. The error payload is the state at the moment
the exception escapes. -/
def index_documents (s : SimIndex) (batch : List (DocId × Vec)) : Except SimIndex SimIndex :=
  let docids := batch.map Prod.fst
  let newVecs := batch.map Prod.snd
  if s.precompute then
    match oldPass s newVecs with
    | .error s' => .error s'
    | .ok s' =>
      let s2 := updateids { s' with store := s'.store ++ newVecs } docids
      .ok (newPass s2 batch)
  else
    .ok (updateids { s with store := s.store ++ newVecs } docids)

/-- `SimIndex.sims_by_id`: with precompute, return the cached entry
(KeyError if absent); otherwise score the stored vector of the document
against the whole store and rank via `sims2scores`. -/
def sims_by_id (s : SimIndex) (docid : DocId) : Except Unit (List (DocId × Score)) :=
  if s.precompute then
    match dget docid s.id2sims with
    | some r => .ok r
    | none => .error ()
  else
    match dget docid s.id2pos with
    | some pos =>
      let row := s.store.map (fun sv => ip (s.store.getD pos []) sv)
      .ok (sims2scores s.pos2id row)
    | none => .error ()

/-- `SimIndex.sims_by_doc`, abstracted over the semantic model: takes the
query document's vector directly and ranks it against the whole store. -/
def sims_by_doc (s : SimIndex) (vec : Vec) : List (DocId × Score) :=
  sims2scores s.pos2id (s.store.map (fun sv => ip vec sv))

end SimIndex

/-- A `find_similar` query: a document id (`basestring` branch) or a document,
abstracted to its vector (`doc['text']` is vectorized by the model). -/
inductive Query : Type
  | byId (docid : DocId)
  | byDoc (vec : Vec)

/-- The result-accumulation loop of `SimServer.find_similar`: walk the ranked
list, stopping at the first score below `minScore` or (when `0 < maxResults`)
once `maxResults` results have been taken. -/
def findLoop (minScore : Score) (maxResults : Int) :
    List (DocId × Score) → List (DocId × Score) → List (DocId × Score)
  | [], acc => acc
  | (docid, score) :: rest, acc =>
    if score < minScore ∨ (0 < maxResults ∧ maxResults ≤ (acc.length : Int)) then acc
    else findLoop minScore maxResults rest (acc ++ [(docid, score)])

/-- `SimServer.find_similar`: dispatch on the query kind to `sims_by_id` or
`sims_by_doc`, then run the accumulation loop. -/
def find_similar (s : SimIndex) (q : Query) (minScore : Score) (maxResults : Int) :
    Except Unit (List (DocId × Score)) :=
  match q with
  | .byId docid => (s.sims_by_id docid).map (fun sims => findLoop minScore maxResults sims [])
  | .byDoc vec => .ok (findLoop minScore maxResults (s.sims_by_doc vec) [])

/-- Well-formedness of the identity maps: unique keys on both sides, the two
directions are entry-wise inverse, all stored positions are below `length`,
and the two directions have equal cardinality. This holds in the initial
state and is preserved by the mutating operations (proved below). -/
def WF (s : SimIndex) : Prop :=
  (s.id2pos.map Prod.fst).Nodup ∧
  (s.pos2id.map Prod.fst).Nodup ∧
  (∀ e ∈ s.id2pos, dget e.2 s.pos2id = some e.1) ∧
  (∀ e ∈ s.pos2id, dget e.2 s.id2pos = some e.1) ∧
  (∀ e ∈ s.pos2id, e.1 < s.length) ∧
  s.pos2id.length = s.id2pos.length

instance (s : SimIndex) : Decidable (WF s) := by
  unfold WF; infer_instance

/-- Equality of a state's identity maps, length, store and precompute flag
with another's (everything except the similarity cache `id2sims`). -/
def sameMaps (s t : SimIndex) : Prop :=
  t.id2pos = s.id2pos ∧ t.pos2id = s.pos2id ∧ t.length = s.length ∧
  t.store = s.store ∧ t.precompute = s.precompute

/-- The state a run ends in, whether it returned normally or raised. -/
def runState (e : Except SimIndex SimIndex) : SimIndex :=
  match e with
  | .ok s => s
  | .error s => s

/-- The restriction `find_similar` applies to a ranked list, written as a
recursive specification: cut at the first score below `minScore`, and (when a
budget is given) stop once the budget is exhausted. -/
def restrictAux (minScore : Score) (budget : Option Nat) :
    List (DocId × Score) → List (DocId × Score)
  | [] => []
  | pr :: rest =>
    if pr.2 < minScore then []
    else
      match budget with
      | some 0 => []
      | some (n + 1) => pr :: restrictAux minScore (some n) rest
      | none => pr :: restrictAux minScore none rest

section ConcreteRuns

open SimIndex

/-- A precompute index holding `a ↦ [2, 0]` and `b ↦ [0, 3]`. -/
def stAB : SimIndex := runState (index_documents (init true) [("a", [2, 0]), ("b", [0, 3])])

/-- `stAB` after further indexing `c ↦ [1, 1]`. -/
def stABC : SimIndex := runState (index_documents stAB [("c", [1, 1])])

/-- `stAB` after `delete({"b"})`: position 1 becomes a ghost slot. -/
def stA : SimIndex := runState (stAB.delete ["b"])

/-- The state in which indexing `c ↦ [1, 1]` into `stA` raises (the ghost
slot at position 1 has no `pos2id` entry). -/
def stAErr : SimIndex := runState (index_documents stA [("c", [1, 1])])

/-- A precompute index holding `a ↦ [2, 0]` and `b ↦ [1, 0]`. -/
def stAB2 : SimIndex := runState (index_documents (init true) [("a", [2, 0]), ("b", [1, 0])])

/-- `stAB2` after `delete({"a"})`. -/
def stB : SimIndex := runState (stAB2.delete ["a"])

/-- A precompute index holding ids `a`, `b`, `c`. -/
def st3 : SimIndex :=
  runState (index_documents (init true) [("a", [1, 0]), ("b", [0, 1]), ("c", [1, 1])])

/-- `st3` after `delete({"b"})`. -/
def st3d : SimIndex := runState (st3.delete ["b"])

/-- The state in which re-adding id `a` into `st3d` raises (ghost slot at
position 1). -/
def st3dErr : SimIndex := runState (index_documents st3d [("a", [5, 5])])

/-- A non-precompute index holding ids `a`, `b`, `c`. -/
def np3 : SimIndex :=
  runState (index_documents (init false) [("a", [1, 0]), ("b", [0, 1]), ("c", [1, 1])])

/-- `np3` after `delete({"b"})`. -/
def np3d : SimIndex := runState (np3.delete ["b"])

/-- `np3d` after re-adding id `a` with a new vector. -/
def np3r : SimIndex := runState (index_documents np3d [("a", [5, 5])])

/-- A non-precompute index holding `a ↦ [2, 0]` and `b ↦ [1, 0]`. -/
def npAB : SimIndex := runState (index_documents (init false) [("a", [2, 0]), ("b", [1, 0])])

/-- `npAB` after `delete({"a"})`. -/
def npB : SimIndex := runState (npAB.delete ["a"])

end ConcreteRuns

section DictLemmas

variable {α β : Type} [DecidableEq α]

theorem dget_mem {k : α} {v : β} :
    ∀ {d : List (α × β)}, dget k d = some v → (k, v) ∈ d
  | [], h => by simp [dget] at h
  | (k', v') :: d, h => by
    by_cases hk : k' = k
    · subst hk
      simp only [dget, if_true, eq_self_iff_true] at h
      rw [Option.some_inj] at h
      simp [h]
    · simp only [dget, if_neg hk] at h
      exact List.mem_cons_of_mem _ (dget_mem h)

theorem dget_eq_none {k : α} :
    ∀ {d : List (α × β)}, dget k d = none ↔ k ∉ d.map Prod.fst
  | [] => by simp [dget]
  | (k', v') :: d => by
    by_cases hk : k' = k
    · subst hk; simp [dget]
    · simp only [dget, if_neg hk, List.map_cons, List.mem_cons]
      rw [dget_eq_none]
      constructor
      · rintro h (h' | h')
        · exact hk h'.symm
        · exact h h'
      · intro h h'
        exact h (Or.inr h')

theorem dmem_eq_true {k : α} {d : List (α × β)} :
    dmem k d = true ↔ k ∈ d.map Prod.fst := by
  unfold dmem
  rcases h : dget k d with _ | v
  · simpa using dget_eq_none.mp h
  · simpa using ⟨v, dget_mem h⟩

theorem dmem_eq_false {k : α} {d : List (α × β)} :
    dmem k d = false ↔ k ∉ d.map Prod.fst := by
  rw [← dmem_eq_true]
  cases dmem k d <;> simp

theorem mem_dget {k : α} {v : β} :
    ∀ {d : List (α × β)}, (d.map Prod.fst).Nodup → (k, v) ∈ d → dget k d = some v
  | [], _, h => by simp at h
  | (k', v') :: d, hnd, h => by
    rw [List.map_cons, List.nodup_cons] at hnd
    rcases List.mem_cons.mp h with h' | h'
    · cases h'
      simp [dget]
    · have hk : k' ≠ k := by
        rintro rfl
        exact hnd.1 (List.mem_map.mpr ⟨(k', v), h', rfl⟩)
      simp only [dget, if_neg hk]
      exact mem_dget hnd.2 h'

theorem dget_dset_self {k : α} {v : β} :
    ∀ {d : List (α × β)}, dget k (dset k v d) = some v
  | [] => by simp [dget, dset]
  | (k', v') :: d => by
    by_cases hk : k' = k
    · subst hk; simp [dget, dset]
    · simp only [dset, if_neg hk, dget, if_neg hk]
      exact dget_dset_self

theorem dget_dset_ne {k k' : α} {v : β} (hk : k' ≠ k) :
    ∀ {d : List (α × β)}, dget k' (dset k v d) = dget k' d
  | [] => by simp [dget, dset, Ne.symm hk]
  | (k'', v'') :: d => by
    by_cases hk'' : k'' = k
    · subst hk''
      simp [dget, dset, Ne.symm hk, hk]
    · simp only [dset, if_neg hk'', dget]
      by_cases h2 : k'' = k'
      · simp [h2]
      · simp only [if_neg h2]
        exact dget_dset_ne hk

theorem dget_ddel_ne {k k' : α} (hk : k' ≠ k) :
    ∀ {d : List (α × β)}, dget k' (ddel k d) = dget k' d
  | [] => by simp [ddel]
  | (k'', v'') :: d => by
    by_cases hk'' : k'' = k
    · subst hk''
      simp [ddel, dget, Ne.symm hk]
    · simp only [ddel, if_neg hk'', dget]
      by_cases h2 : k'' = k'
      · simp [h2]
      · simp only [if_neg h2]
        exact dget_ddel_ne hk

theorem ddel_sublist (k : α) :
    ∀ (d : List (α × β)), List.Sublist (ddel k d) d
  | [] => List.Sublist.refl []
  | (k', v') :: d => by
    by_cases hk : k' = k
    · simpa [ddel, hk] using List.sublist_cons_self (k', v') d
    · simpa [ddel, hk] using (ddel_sublist k d).cons₂ (k', v')

theorem mem_of_mem_ddel {k : α} {e : α × β} {d : List (α × β)}
    (h : e ∈ ddel k d) : e ∈ d :=
  (ddel_sublist k d).mem h

theorem dmem_ddel_self {k : α} :
    ∀ {d : List (α × β)}, (d.map Prod.fst).Nodup → dmem k (ddel k d) = false
  | [], _ => by simp [dmem, ddel, dget]
  | (k', v') :: d, hnd => by
    rw [List.map_cons, List.nodup_cons] at hnd
    by_cases hk : k' = k
    · subst hk
      simp only [ddel, if_pos rfl]
      exact dmem_eq_false.mpr hnd.1
    · simp only [ddel, if_neg hk, dmem, dget, if_neg hk]
      exact dmem_ddel_self hnd.2

theorem keys_dset_mem {k : α} {v : β} :
    ∀ {d : List (α × β)}, dmem k d = true → (dset k v d).map Prod.fst = d.map Prod.fst
  | [], h => by simp [dmem, dget] at h
  | (k', v') :: d, h => by
    by_cases hk : k' = k
    · subst hk; simp [dset]
    · simp only [dset, if_neg hk, List.map_cons, List.cons.injEq, true_and]
      apply keys_dset_mem
      simpa [dmem, dget, if_neg hk] using h

theorem keys_dset_not_mem {k : α} {v : β} :
    ∀ {d : List (α × β)}, dmem k d = false → (dset k v d).map Prod.fst = d.map Prod.fst ++ [k]
  | [], _ => by simp [dset]
  | (k', v') :: d, h => by
    by_cases hk : k' = k
    · subst hk; simp [dmem, dget] at h
    · simp only [dset, if_neg hk, List.map_cons, List.cons_append, List.cons.injEq, true_and]
      apply keys_dset_not_mem
      simpa [dmem, dget, if_neg hk] using h

theorem dset_eq_append {k : α} {v : β} :
    ∀ {d : List (α × β)}, dmem k d = false → dset k v d = d ++ [(k, v)]
  | [], _ => by simp [dset]
  | (k', v') :: d, h => by
    by_cases hk : k' = k
    · subst hk; simp [dmem, dget] at h
    · simp only [dset, if_neg hk, List.cons_append, List.cons.injEq, true_and]
      apply dset_eq_append
      simpa [dmem, dget, if_neg hk] using h

theorem nodup_keys_dset {k : α} {v : β} {d : List (α × β)}
    (hnd : (d.map Prod.fst).Nodup) : ((dset k v d).map Prod.fst).Nodup := by
  rcases h : dmem k d with _ | _
  · rw [keys_dset_not_mem h, List.nodup_append]
    refine ⟨hnd, List.nodup_singleton k, ?_⟩
    intro a ha hb
    rw [List.mem_singleton] at hb
    subst hb
    exact dmem_eq_false.mp h ha
  · rw [keys_dset_mem h]; exact hnd

theorem length_dset_mem {k : α} {v : β} :
    ∀ {d : List (α × β)}, dmem k d = true → (dset k v d).length = d.length
  | [], h => by simp [dmem, dget] at h
  | (k', v') :: d, h => by
    by_cases hk : k' = k
    · subst hk; simp [dset]
    · simp only [dset, if_neg hk, List.length_cons, Nat.add_right_cancel_iff]
      apply length_dset_mem
      simpa [dmem, dget, if_neg hk] using h

theorem length_dset_not_mem {k : α} {v : β} {d : List (α × β)}
    (h : dmem k d = false) : (dset k v d).length = d.length + 1 := by
  rw [dset_eq_append h]; simp

theorem length_ddel {k : α} :
    ∀ {d : List (α × β)}, dmem k d = true → (ddel k d).length + 1 = d.length
  | [], h => by simp [dmem, dget] at h
  | (k', v') :: d, h => by
    by_cases hk : k' = k
    · subst hk; simp [ddel]
    · simp only [ddel, if_neg hk, List.length_cons, Nat.add_right_cancel_iff]
      apply length_ddel
      simpa [dmem, dget, if_neg hk] using h

theorem mem_dset_weak {k : α} {v : β} {e : α × β} :
    ∀ {d : List (α × β)}, e ∈ dset k v d → e = (k, v) ∨ e ∈ d
  | [], h => by
    simp only [dset, List.mem_singleton] at h
    exact Or.inl h
  | (k', v') :: d, h => by
    by_cases hk : k' = k
    · subst hk
      rw [show dset k' v ((k', v') :: d) = (k', v) :: d from by simp [dset],
        List.mem_cons] at h
      rcases h with h | h
      · exact Or.inl h
      · exact Or.inr (List.mem_cons_of_mem _ h)
    · rw [show dset k v ((k', v') :: d) = (k', v') :: dset k v d from by simp [dset, hk],
        List.mem_cons] at h
      rcases h with h | h
      · exact Or.inr (List.mem_cons.mpr (Or.inl h))
      · rcases mem_dset_weak h with h' | h'
        · exact Or.inl h'
        · exact Or.inr (List.mem_cons_of_mem _ h')

theorem mem_dset {k : α} {v : β} {e : α × β} :
    ∀ {d : List (α × β)}, (d.map Prod.fst).Nodup → e ∈ dset k v d →
      e = (k, v) ∨ (e ∈ d ∧ e.1 ≠ k)
  | [], _, h => by
    simp only [dset, List.mem_singleton] at h
    exact Or.inl h
  | (k', v') :: d, hnd, h => by
    rw [List.map_cons, List.nodup_cons] at hnd
    by_cases hk : k' = k
    · subst hk
      rw [show dset k' v ((k', v') :: d) = (k', v) :: d from by simp [dset],
        List.mem_cons] at h
      rcases h with h | h
      · exact Or.inl h
      · refine Or.inr ⟨List.mem_cons_of_mem _ h, ?_⟩
        rintro h1
        exact hnd.1 (List.mem_map.mpr ⟨e, h, h1⟩)
    · rw [show dset k v ((k', v') :: d) = (k', v') :: dset k v d from by simp [dset, hk],
        List.mem_cons] at h
      rcases h with h | h
      · subst h
        exact Or.inr ⟨List.mem_cons.mpr (Or.inl rfl), hk⟩
      · rcases mem_dset hnd.2 h with h' | h'
        · exact Or.inl h'
        · exact Or.inr ⟨List.mem_cons_of_mem _ h'.1, h'.2⟩

end DictLemmas

section SortLemmas

variable {α : Type}

theorem mem_sinsert {le : α → α → Bool} {x a : α} :
    ∀ {l : List α}, a ∈ sinsert le x l ↔ a = x ∨ a ∈ l
  | [] => by simp [sinsert]
  | y :: ys => by
    by_cases h : le x y
    · simp [sinsert, h]
    · simp only [sinsert, if_neg h, List.mem_cons, mem_sinsert]
      tauto

theorem sinsert_perm (le : α → α → Bool) (x : α) :
    ∀ (l : List α), (sinsert le x l).Perm (x :: l)
  | [] => List.Perm.refl [x]
  | y :: ys => by
    by_cases h : le x y
    · rw [show sinsert le x (y :: ys) = x :: y :: ys from by simp [sinsert, h]]
    · rw [show sinsert le x (y :: ys) = y :: sinsert le x ys from by simp [sinsert, h]]
      exact ((sinsert_perm le x ys).cons y).trans (List.Perm.swap x y ys)

theorem ssort_perm (le : α → α → Bool) :
    ∀ (l : List α), (ssort le l).Perm l
  | [] => List.Perm.refl []
  | x :: xs =>
    (sinsert_perm le x (ssort le xs)).trans ((ssort_perm le xs).cons x)

theorem pairwise_sinsert (f : α → Int) (x : α) :
    ∀ {l : List α}, l.Pairwise (fun a b => f b ≤ f a) →
      (sinsert (fun a b => decide (f b ≤ f a)) x l).Pairwise (fun a b => f b ≤ f a)
  | [], _ => List.pairwise_singleton _ x
  | y :: ys, h => by
    rw [List.pairwise_cons] at h
    by_cases hxy : f y ≤ f x
    · rw [show sinsert (fun a b => decide (f b ≤ f a)) x (y :: ys) = x :: y :: ys from by
        simp [sinsert, hxy]]
      rw [List.pairwise_cons]
      refine ⟨?_, List.pairwise_cons.mpr h⟩
      intro b hb
      rcases List.mem_cons.mp hb with hb | hb
      · subst hb; exact hxy
      · exact (h.1 b hb).trans hxy
    · rw [show sinsert (fun a b => decide (f b ≤ f a)) x (y :: ys) =
          y :: sinsert (fun a b => decide (f b ≤ f a)) x ys from by simp [sinsert, hxy]]
      rw [List.pairwise_cons]
      refine ⟨?_, pairwise_sinsert f x h.2⟩
      intro b hb
      rcases mem_sinsert.mp hb with hb | hb
      · subst hb; exact le_of_lt (lt_of_not_le hxy)
      · exact h.1 b hb

theorem pairwise_ssort (f : α → Int) :
    ∀ (l : List α), (ssort (fun a b => decide (f b ≤ f a)) l).Pairwise (fun a b => f b ≤ f a)
  | [] => List.Pairwise.nil
  | x :: xs => pairwise_sinsert f x (pairwise_ssort f xs)

theorem argsortDesc_pairwise (sims : List Score) :
    (argsortDesc sims).Pairwise (fun i j => sims.getD j 0 ≤ sims.getD i 0) :=
  pairwise_ssort (fun i => sims.getD i 0) (List.range sims.length)

theorem argsortDesc_nodup (sims : List Score) : (argsortDesc sims).Nodup :=
  ((ssort_perm _ (List.range sims.length)).nodup_iff).mpr (List.nodup_range sims.length)

end SortLemmas

section CollectLemmas

theorem collect_length (p2i : List (Nat × DocId)) (sims : List Score) :
    ∀ (ps : List Nat) (acc : List (DocId × Score)),
      acc.length < TOP_SIMS → (collect p2i sims ps acc).length ≤ TOP_SIMS
  | [], acc, h => by
    rw [collect]
    exact Nat.le_of_lt h
  | p :: ps, acc, h => by
    rw [collect]
    rcases hd : dget p p2i with _ | docid
    · exact collect_length p2i sims ps acc h
    · simp only []
      by_cases hl : (acc ++ [(docid, sims.getD p 0)]).length = TOP_SIMS
      · rw [if_pos hl]
        exact Nat.le_of_eq hl
      · rw [if_neg hl]
        refine collect_length p2i sims ps _ ?_
        rw [List.length_append, List.length_singleton]
        rcases Nat.lt_or_ge (acc.length + 1) TOP_SIMS with h' | h'
        · exact h'
        · exfalso
          apply hl
          rw [List.length_append, List.length_singleton]
          omega

theorem collect_sorted (p2i : List (Nat × DocId)) (sims : List Score) :
    ∀ (ps : List Nat) (acc : List (DocId × Score)),
      ps.Pairwise (fun i j => sims.getD j 0 ≤ sims.getD i 0) →
      acc.Pairwise (fun a b => b.2 ≤ a.2) →
      (∀ a ∈ acc, ∀ p ∈ ps, sims.getD p 0 ≤ a.2) →
      (collect p2i sims ps acc).Pairwise (fun a b => b.2 ≤ a.2)
  | [], acc, _, hacc, _ => by rw [collect]; exact hacc
  | p :: ps, acc, hps, hacc, hbound => by
    rw [List.pairwise_cons] at hps
    rw [collect]
    rcases hd : dget p p2i with _ | docid
    · refine collect_sorted p2i sims ps acc hps.2 hacc ?_
      intro a ha q hq
      exact hbound a ha q (List.mem_cons_of_mem p hq)
    · simp only []
      have hacc' : (acc ++ [(docid, sims.getD p 0)]).Pairwise (fun a b => b.2 ≤ a.2) := by
        rw [List.pairwise_append]
        refine ⟨hacc, List.pairwise_singleton _ _, ?_⟩
        intro a ha b hb
        rw [List.mem_singleton] at hb
        subst hb
        exact hbound a ha p (List.mem_cons_self p ps)
      by_cases hl : (acc ++ [(docid, sims.getD p 0)]).length = TOP_SIMS
      · rw [if_pos hl]; exact hacc'
      · rw [if_neg hl]
        refine collect_sorted p2i sims ps _ hps.2 hacc' ?_
        intro a ha q hq
        rcases List.mem_append.mp ha with ha' | ha'
        · exact hbound a ha' q (List.mem_cons_of_mem p hq)
        · rw [List.mem_singleton] at ha'
          subst ha'
          exact hps.1 q hq

theorem collect_mem (p2i : List (Nat × DocId)) (sims : List Score) :
    ∀ (ps : List Nat) (acc : List (DocId × Score)) (pr : DocId × Score),
      pr ∈ collect p2i sims ps acc →
      pr ∈ acc ∨ ∃ p ∈ ps, dget p p2i = some pr.1 ∧ pr.2 = sims.getD p 0
  | [], acc, pr, h => by rw [collect] at h; exact Or.inl h
  | p :: ps, acc, pr, h => by
    rw [collect] at h
    rcases hd : dget p p2i with _ | docid
    · rw [hd] at h
      rcases collect_mem p2i sims ps acc pr h with h' | ⟨q, hq, h1, h2⟩
      · exact Or.inl h'
      · exact Or.inr ⟨q, List.mem_cons_of_mem p hq, h1, h2⟩
    · rw [hd] at h
      simp only [] at h
      have hsplit : pr ∈ acc ++ [(docid, sims.getD p 0)] ∨
          pr ∈ collect p2i sims ps (acc ++ [(docid, sims.getD p 0)]) := by
        by_cases hl : (acc ++ [(docid, sims.getD p 0)]).length = TOP_SIMS
        · rw [if_pos hl] at h; exact Or.inl h
        · rw [if_neg hl] at h; exact Or.inr h
      have hstep : pr ∈ acc ++ [(docid, sims.getD p 0)] →
          pr ∈ acc ∨ ∃ q ∈ p :: ps, dget q p2i = some pr.1 ∧ pr.2 = sims.getD q 0 := by
        intro hmem
        rcases List.mem_append.mp hmem with h' | h'
        · exact Or.inl h'
        · rw [List.mem_singleton] at h'
          subst h'
          exact Or.inr ⟨p, List.mem_cons_self p ps, hd, rfl⟩
      rcases hsplit with h' | h'
      · exact hstep h'
      · rcases collect_mem p2i sims ps _ pr h' with h'' | ⟨q, hq, h1, h2⟩
        · exact hstep h''
        · exact Or.inr ⟨q, List.mem_cons_of_mem p hq, h1, h2⟩

theorem collect_nodup (p2i : List (Nat × DocId)) (sims : List Score)
    (hinj : ∀ e1 ∈ p2i, ∀ e2 ∈ p2i, e1.2 = e2.2 → e1.1 = e2.1) :
    ∀ (ps : List Nat) (acc : List (DocId × Score)),
      ps.Nodup →
      (acc.map Prod.fst).Nodup →
      (∀ pr ∈ acc, ∀ q ∈ ps, dget q p2i ≠ some pr.1) →
      ((collect p2i sims ps acc).map Prod.fst).Nodup
  | [], acc, _, hacc, _ => by rw [collect]; exact hacc
  | p :: ps, acc, hps, hacc, hfresh => by
    rw [List.nodup_cons] at hps
    rw [collect]
    rcases hd : dget p p2i with _ | docid
    · refine collect_nodup p2i sims hinj ps acc hps.2 hacc ?_
      intro pr hpr q hq
      exact hfresh pr hpr q (List.mem_cons_of_mem p hq)
    · simp only []
      have hacc' : ((acc ++ [(docid, sims.getD p 0)]).map Prod.fst).Nodup := by
        rw [List.map_append, List.nodup_append]
        refine ⟨hacc, by simp, ?_⟩
        intro a ha hb
        simp only [List.map_cons, List.map_nil, List.mem_singleton] at hb
        subst hb
        rcases List.mem_map.mp ha with ⟨pr, hpr, hfst⟩
        exact hfresh pr hpr p (List.mem_cons_self p ps) (by rw [hd, hfst])
      by_cases hl : (acc ++ [(docid, sims.getD p 0)]).length = TOP_SIMS
      · rw [if_pos hl]; exact hacc'
      · rw [if_neg hl]
        refine collect_nodup p2i sims hinj ps _ hps.2 hacc' ?_
        intro pr hpr q hq
        rcases List.mem_append.mp hpr with h' | h'
        · exact hfresh pr h' q (List.mem_cons_of_mem p hq)
        · rw [List.mem_singleton] at h'
          subst h'
          intro hcontra
          have h1 := dget_mem hd
          have h2 := dget_mem hcontra
          have hqp : q = p := hinj _ h2 _ h1 rfl
          rw [hqp] at hq
          exact hps.1 hq

theorem sims2scores_length (p2i : List (Nat × DocId)) (raw : List Score) :
    (sims2scores p2i raw).length ≤ TOP_SIMS := by
  unfold sims2scores
  exact collect_length p2i _ _ [] (by norm_num [TOP_SIMS])

theorem sims2scores_sorted (p2i : List (Nat × DocId)) (raw : List Score) :
    (sims2scores p2i raw).Pairwise (fun a b => b.2 ≤ a.2) := by
  unfold sims2scores
  refine collect_sorted p2i _ _ [] (argsortDesc_pairwise _) List.Pairwise.nil ?_
  intro a ha
  simp at ha

theorem sims2scores_live (p2i : List (Nat × DocId)) (raw : List Score) :
    ∀ pr ∈ sims2scores p2i raw, ∃ p, dget p p2i = some pr.1 := by
  intro pr hpr
  unfold sims2scores at hpr
  rcases collect_mem p2i _ _ [] pr hpr with h | ⟨p, _, h1, _⟩
  · simp at h
  · exact ⟨p, h1⟩

theorem sims2scores_nodup (p2i : List (Nat × DocId)) (raw : List Score)
    (hinj : ∀ e1 ∈ p2i, ∀ e2 ∈ p2i, e1.2 = e2.2 → e1.1 = e2.1) :
    ((sims2scores p2i raw).map Prod.fst).Nodup := by
  unfold sims2scores
  refine collect_nodup p2i _ hinj _ [] (argsortDesc_nodup _) List.Pairwise.nil ?_
  intro pr hpr
  simp at hpr

end CollectLemmas

section StateLemmas

open SimIndex

theorem mem_keys_of_mem {α β : Type} {e : α × β} {d : List (α × β)} (h : e ∈ d) :
    e.1 ∈ d.map Prod.fst :=
  List.mem_map.mpr ⟨e, h, rfl⟩

theorem dmem_true_of_mem {α β : Type} [DecidableEq α] {e : α × β} {d : List (α × β)}
    (h : e ∈ d) : dmem e.1 d = true :=
  dmem_eq_true.mpr (mem_keys_of_mem h)

theorem dmem_false_of_sublist {α β : Type} [DecidableEq α] {k : α} {m d : List (α × β)}
    (hsub : List.Sublist m d) (hd : dmem k d = false) : dmem k m = false := by
  rw [dmem_eq_false] at hd ⊢
  intro hmem
  exact hd ((hsub.map Prod.fst).mem hmem)

theorem updateids1_of_none {s : SimIndex} {docid : DocId}
    (h : dget docid s.id2pos = none) :
    updateids1 s docid =
      { s with id2pos := dset docid s.length s.id2pos,
               pos2id := dset s.length docid s.pos2id,
               length := s.length + 1 } := by
  unfold updateids1
  rw [h]

theorem updateids1_of_some {s : SimIndex} {docid : DocId} {oldpos : Nat}
    (h : dget docid s.id2pos = some oldpos) :
    updateids1 s docid =
      { s with id2pos := dset docid s.length s.id2pos,
               pos2id := dset s.length docid (ddel oldpos s.pos2id),
               length := s.length + 1 } := by
  unfold updateids1
  rw [h]

theorem WF_pos2id_fresh {s : SimIndex} (h : WF s) :
    dmem s.length s.pos2id = false := by
  rw [dmem_eq_false]
  intro hmem
  rcases List.mem_map.mp hmem with ⟨e, he, hfst⟩
  have := h.2.2.2.2.1 e he
  omega

theorem WF_id2pos_snd_nodup {s : SimIndex} (h : WF s) :
    (s.id2pos.map Prod.snd).Nodup := by
  refine (h.1.of_map Prod.fst).map_on ?_
  intro x hx y hy hxy
  have h3x := h.2.2.1 x hx
  have h3y := h.2.2.1 y hy
  rw [hxy, h3y, Option.some_inj] at h3x
  exact Prod.ext h3x.symm hxy

theorem updateids1_WF {s : SimIndex} (h : WF s) (docid : DocId) :
    WF (updateids1 s docid) := by
  obtain ⟨h1, h2, h3, h4, h5, h6⟩ := h
  have hfresh : dmem s.length s.pos2id = false := WF_pos2id_fresh ⟨h1, h2, h3, h4, h5, h6⟩
  have hfresh' : s.length ∉ s.pos2id.map Prod.fst := dmem_eq_false.mp hfresh
  rcases hcase : dget docid s.id2pos with _ | oldpos
  · rw [updateids1_of_none hcase]
    have hmemf : dmem docid s.id2pos = false := by unfold dmem; rw [hcase]; rfl
    refine ⟨nodup_keys_dset h1, nodup_keys_dset h2, ?_, ?_, ?_, ?_⟩
    · intro e he
      rcases mem_dset h1 he with he' | ⟨he', hne⟩
      · subst he'
        exact dget_dset_self
      · have h3e := h3 e he'
        have hlt : e.2 < s.length := h5 _ (dget_mem h3e)
        rw [dget_dset_ne (by omega)]
        exact h3e
    · intro e he
      rcases mem_dset h2 he with he' | ⟨he', hne⟩
      · subst he'
        exact dget_dset_self
      · have h4e := h4 e he'
        have hne2 : e.2 ≠ docid := by
          rintro rfl
          rw [hcase] at h4e
          exact Option.noConfusion h4e
        rw [dget_dset_ne hne2]
        exact h4e
    · intro e he
      rcases mem_dset_weak he with he' | he'
      · subst he'
        show s.length < s.length + 1
        omega
      · have := h5 e he'
        show e.1 < s.length + 1
        omega
    · rw [length_dset_not_mem hfresh, length_dset_not_mem hmemf, h6]
  · rw [updateids1_of_some hcase]
    have hmemt : dmem docid s.id2pos = true := by unfold dmem; rw [hcase]; rfl
    have hop : (docid, oldpos) ∈ s.id2pos := dget_mem hcase
    have hpd : dget oldpos s.pos2id = some docid := h3 _ hop
    have hpdmem : (oldpos, docid) ∈ s.pos2id := dget_mem hpd
    have hopmem : dmem oldpos s.pos2id = true := dmem_true_of_mem hpdmem
    have hmidnd : ((ddel oldpos s.pos2id).map Prod.fst).Nodup :=
      h2.sublist ((ddel_sublist oldpos s.pos2id).map Prod.fst)
    have hfreshmid : dmem s.length (ddel oldpos s.pos2id) = false :=
      dmem_false_of_sublist (ddel_sublist oldpos s.pos2id) hfresh
    refine ⟨nodup_keys_dset h1, nodup_keys_dset hmidnd, ?_, ?_, ?_, ?_⟩
    · intro e he
      rcases mem_dset h1 he with he' | ⟨he', hne⟩
      · subst he'
        exact dget_dset_self
      · have h3e := h3 e he'
        have hlt : e.2 < s.length := h5 _ (dget_mem h3e)
        rw [dget_dset_ne (by omega)]
        have hneop : e.2 ≠ oldpos := by
          rintro heq
          rw [heq, hpd, Option.some_inj] at h3e
          exact hne (by rw [← h3e])
        rw [dget_ddel_ne hneop]
        exact h3e
    · intro e he
      rcases mem_dset hmidnd he with he' | ⟨he', hne⟩
      · subst he'
        exact dget_dset_self
      · have hein : e ∈ s.pos2id := mem_of_mem_ddel he'
        have h4e := h4 e hein
        have hne2 : e.2 ≠ docid := by
          rintro rfl
          rw [hcase, Option.some_inj] at h4e
          have h41 : e.1 = oldpos := h4e.symm
          have hmm : dmem oldpos (ddel oldpos s.pos2id) = true := by
            have hm2 := dmem_true_of_mem he'
            rwa [h41] at hm2
          rw [dmem_ddel_self h2] at hmm
          exact Bool.noConfusion hmm
        rw [dget_dset_ne hne2]
        exact h4e
    · intro e he
      rcases mem_dset_weak he with he' | he'
      · subst he'
        show s.length < s.length + 1
        omega
      · have := h5 e (mem_of_mem_ddel he')
        show e.1 < s.length + 1
        omega
    · rw [length_dset_not_mem hfreshmid, length_dset_mem hmemt]
      have := length_ddel hopmem
      omega

theorem updateids_WF : ∀ (docids : List DocId) (s : SimIndex), WF s → WF (updateids s docids)
  | [], s, h => h
  | docid :: rest, s, h => by
    unfold updateids
    rw [List.foldl_cons]
    exact updateids_WF rest (updateids1 s docid) (updateids1_WF h docid)

theorem updateids1_store (s : SimIndex) (docid : DocId) :
    (updateids1 s docid).store = s.store := by
  rcases hcase : dget docid s.id2pos with _ | oldpos
  · rw [updateids1_of_none hcase]
  · rw [updateids1_of_some hcase]

theorem updateids1_precompute (s : SimIndex) (docid : DocId) :
    (updateids1 s docid).precompute = s.precompute := by
  rcases hcase : dget docid s.id2pos with _ | oldpos
  · rw [updateids1_of_none hcase]
  · rw [updateids1_of_some hcase]

theorem updateids1_length (s : SimIndex) (docid : DocId) :
    (updateids1 s docid).length = s.length + 1 := by
  rcases hcase : dget docid s.id2pos with _ | oldpos
  · rw [updateids1_of_none hcase]
  · rw [updateids1_of_some hcase]

theorem updateids_store : ∀ (docids : List DocId) (s : SimIndex),
    (updateids s docids).store = s.store
  | [], s => rfl
  | docid :: rest, s => by
    unfold updateids
    rw [List.foldl_cons]
    rw [show (rest.foldl updateids1 (updateids1 s docid)) = updateids (updateids1 s docid) rest
      from rfl]
    rw [updateids_store rest, updateids1_store]

theorem updateids_precompute : ∀ (docids : List DocId) (s : SimIndex),
    (updateids s docids).precompute = s.precompute
  | [], s => rfl
  | docid :: rest, s => by
    unfold updateids
    rw [List.foldl_cons]
    rw [show (rest.foldl updateids1 (updateids1 s docid)) = updateids (updateids1 s docid) rest
      from rfl]
    rw [updateids_precompute rest, updateids1_precompute]

theorem sameMaps_refl (s : SimIndex) : sameMaps s s := ⟨rfl, rfl, rfl, rfl, rfl⟩

theorem sameMaps_trans {s t u : SimIndex} (h1 : sameMaps s t) (h2 : sameMaps t u) :
    sameMaps s u := by
  obtain ⟨a1, a2, a3, a4, a5⟩ := h1
  obtain ⟨b1, b2, b3, b4, b5⟩ := h2
  exact ⟨b1.trans a1, b2.trans a2, b3.trans a3, b4.trans a4, b5.trans a5⟩

theorem except_bind_ok {ε σ σ' : Type} (a : σ) (f : σ → Except ε σ') :
    ((Except.ok a : Except ε σ) >>= f) = f a := rfl

theorem except_bind_error {ε σ σ' : Type} (e : ε) (f : σ → Except ε σ') :
    ((Except.error e : Except ε σ) >>= f) = .error e := rfl

theorem oldPass1_sameMaps (nv : List Vec) (s : SimIndex) (pos : Nat) :
    sameMaps s (runState (oldPass1 nv s pos)) := by
  unfold oldPass1
  rcases dget pos s.pos2id with _ | docid
  · exact sameMaps_refl s
  · simp only []
    rcases dget docid s.id2sims with _ | oldsims
    · exact sameMaps_refl s
    · exact ⟨rfl, rfl, rfl, rfl, rfl⟩

theorem oldPass1_ok_sameMaps {nv : List Vec} {s t : SimIndex} {pos : Nat}
    (h : oldPass1 nv s pos = .ok t) : sameMaps s t := by
  have hs := oldPass1_sameMaps nv s pos
  rw [h] at hs
  exact hs

theorem oldPass1_error_sameMaps {nv : List Vec} {s t : SimIndex} {pos : Nat}
    (h : oldPass1 nv s pos = .error t) : sameMaps s t := by
  have hs := oldPass1_sameMaps nv s pos
  rw [h] at hs
  exact hs

theorem foldlM_oldPass1_sameMaps (nv : List Vec) :
    ∀ (ps : List Nat) (s t : SimIndex),
      (ps.foldlM (oldPass1 nv) s = .ok t ∨ ps.foldlM (oldPass1 nv) s = .error t) →
      sameMaps s t
  | [], s, t, h => by
    rcases h with h | h
    · rw [List.foldlM_nil] at h
      cases h
      exact sameMaps_refl _
    · rw [List.foldlM_nil] at h
      exact Except.noConfusion h
  | p :: ps, s, t, h => by
    rw [List.foldlM_cons] at h
    rcases h1 : oldPass1 nv s p with t1 | t1
    · rw [h1, except_bind_error] at h
      rcases h with h | h
      · exact Except.noConfusion h
      · cases h
        exact oldPass1_error_sameMaps h1
    · rw [h1, except_bind_ok] at h
      exact sameMaps_trans (oldPass1_ok_sameMaps h1) (foldlM_oldPass1_sameMaps nv ps t1 t h)

theorem oldPass_ok_sameMaps {s t : SimIndex} {nv : List Vec}
    (h : oldPass s nv = .ok t) : sameMaps s t :=
  foldlM_oldPass1_sameMaps nv _ s t (Or.inl h)

theorem oldPass_error_sameMaps {s t : SimIndex} {nv : List Vec}
    (h : oldPass s nv = .error t) : sameMaps s t :=
  foldlM_oldPass1_sameMaps nv _ s t (Or.inr h)

theorem newPass_sameMaps : ∀ (prs : List (DocId × Vec)) (s : SimIndex),
    sameMaps s (newPass s prs)
  | [], s => sameMaps_refl s
  | pr :: prs, s => by
    unfold newPass
    rw [List.foldl_cons]
    have h1 : sameMaps s { s with
        id2sims := dset pr.1 (sims2scores s.pos2id (s.store.map (fun sv => ip pr.2 sv)))
          s.id2sims } := ⟨rfl, rfl, rfl, rfl, rfl⟩
    exact sameMaps_trans h1 (newPass_sameMaps prs _)

theorem deleteLoop_nil (d : List (DocId × Nat)) : deleteLoop [] d = .ok d := rfl

theorem deleteLoop_cons (docid : DocId) (rest : List DocId) (d : List (DocId × Nat)) :
    deleteLoop (docid :: rest) d =
      if dmem docid d then deleteLoop rest (ddel docid d) else .error d := rfl

theorem deleteLoop_ok_sublist : ∀ (ids : List DocId) (d m : List (DocId × Nat)),
    deleteLoop ids d = .ok m → List.Sublist m d
  | [], d, m, h => by
    rw [deleteLoop_nil] at h
    cases h
    exact List.Sublist.refl _
  | docid :: rest, d, m, h => by
    rw [deleteLoop_cons] at h
    by_cases hmem : dmem docid d
    · rw [if_pos hmem] at h
      exact (deleteLoop_ok_sublist rest _ m h).trans (ddel_sublist docid d)
    · rw [if_neg hmem] at h
      exact Except.noConfusion h

theorem deleteLoop_removed : ∀ (ids : List DocId) (d m : List (DocId × Nat)),
    (d.map Prod.fst).Nodup → deleteLoop ids d = .ok m → ∀ id ∈ ids, dmem id m = false
  | [], _, _, _, _, id, hid => absurd hid (List.not_mem_nil id)
  | docid :: rest, d, m, hnd, h, id, hid => by
    rw [deleteLoop_cons] at h
    by_cases hmem : dmem docid d
    · rw [if_pos hmem] at h
      have hnd' : ((ddel docid d).map Prod.fst).Nodup :=
        hnd.sublist ((ddel_sublist docid d).map Prod.fst)
      rcases List.mem_cons.mp hid with hid' | hid'
      · subst hid'
        exact dmem_false_of_sublist (deleteLoop_ok_sublist rest _ m h)
          (dmem_ddel_self hnd)
      · exact deleteLoop_removed rest _ m hnd' h id hid'
    · rw [if_neg hmem] at h
      exact Except.noConfusion h

theorem deleteLoop_append : ∀ (xs ys : List DocId) (d m : List (DocId × Nat)),
    deleteLoop xs d = .ok m → deleteLoop (xs ++ ys) d = deleteLoop ys m
  | [], ys, d, m, h => by
    rw [deleteLoop_nil] at h
    cases h
    rfl
  | x :: xs, ys, d, m, h => by
    rw [deleteLoop_cons] at h
    by_cases hmem : dmem x d
    · rw [if_pos hmem] at h
      rw [List.cons_append, deleteLoop_cons, if_pos hmem]
      exact deleteLoop_append xs ys _ m h
    · rw [if_neg hmem] at h
      exact Except.noConfusion h

theorem foldl_dset_mem : ∀ (d : List (DocId × Nat)) (acc : List (Nat × DocId))
    (e : Nat × DocId),
    e ∈ d.foldl (fun acc kv => dset kv.2 kv.1 acc) acc → e ∈ acc ∨ (e.2, e.1) ∈ d
  | [], acc, e, h => Or.inl h
  | kv :: d, acc, e, h => by
    rw [List.foldl_cons] at h
    rcases foldl_dset_mem d _ e h with h' | h'
    · rcases mem_dset_weak h' with h'' | h''
      · right
        rw [h'']
        exact List.mem_cons.mpr (Or.inl rfl)
      · exact Or.inl h''
    · exact Or.inr (List.mem_cons_of_mem kv h')

theorem invert_mem {d : List (DocId × Nat)} {e : Nat × DocId}
    (h : e ∈ invert d) : (e.2, e.1) ∈ d := by
  rcases foldl_dset_mem d [] e h with h' | h'
  · exact absurd h' (List.not_mem_nil e)
  · exact h'

theorem foldl_dset_eq_append : ∀ (d : List (DocId × Nat)) (acc : List (Nat × DocId)),
    (d.map Prod.snd).Nodup → (∀ kv ∈ d, kv.2 ∉ acc.map Prod.fst) →
    d.foldl (fun acc kv => dset kv.2 kv.1 acc) acc = acc ++ d.map (fun e => (e.2, e.1))
  | [], acc, _, _ => by simp
  | kv :: d, acc, hnd, hdisj => by
    rw [List.map_cons, List.nodup_cons] at hnd
    rw [List.foldl_cons]
    have hset : dset kv.2 kv.1 acc = acc ++ [(kv.2, kv.1)] :=
      dset_eq_append (dmem_eq_false.mpr (hdisj kv (List.mem_cons.mpr (Or.inl rfl))))
    rw [hset, foldl_dset_eq_append d _ hnd.2 ?_]
    · simp
    · intro kv' hkv'
      rw [List.map_append]
      rw [List.mem_append]
      rintro (hin | hin)
      · exact hdisj kv' (List.mem_cons_of_mem kv hkv') hin
      · simp only [List.map_cons, List.map_nil, List.mem_singleton] at hin
        apply hnd.1
        rw [← hin]
        exact List.mem_map.mpr ⟨kv', hkv', rfl⟩

theorem invert_eq_map_swap {d : List (DocId × Nat)} (hnd : (d.map Prod.snd).Nodup) :
    invert d = d.map (fun e => (e.2, e.1)) := by
  unfold invert
  rw [foldl_dset_eq_append d [] hnd (by simp)]
  rfl

theorem delete_ok_char {s s' : SimIndex} {ids : List DocId}
    (h : SimIndex.delete s ids = .ok s') :
    ∃ m, deleteLoop ids s.id2pos = .ok m ∧
      s'.id2pos = m ∧ s'.pos2id = invert m ∧ (invert m).length = m.length ∧
      s'.id2sims = s.id2sims ∧ s'.precompute = s.precompute ∧
      s'.length = s.length ∧ s'.store = s.store := by
  unfold SimIndex.delete at h
  split at h
  · exact Except.noConfusion h
  · rename_i m hdl
    split at h
    · rename_i hlen
      cases h
      exact ⟨m, hdl, rfl, rfl, hlen, rfl, rfl, rfl, rfl⟩
    · exact Except.noConfusion h

end StateLemmas

section IndexDocumentsLemmas

open SimIndex

theorem WF_of_sameMaps {s t : SimIndex} (hm : sameMaps s t) (h : WF s) : WF t := by
  obtain ⟨e1, e2, e3, _, _⟩ := hm
  unfold WF at h ⊢
  rw [e1, e2, e3]
  exact h

theorem index_documents_ok_precompute {s s' : SimIndex} {batch : List (DocId × Vec)}
    (hpre : s.precompute = true) (h : index_documents s batch = .ok s') :
    ∃ s1, oldPass s (batch.map Prod.snd) = .ok s1 ∧
      s' = newPass
        (updateids { s1 with store := s1.store ++ batch.map Prod.snd } (batch.map Prod.fst))
        batch := by
  unfold index_documents at h
  rw [hpre] at h
  simp only [if_true] at h
  rcases hop : oldPass s (batch.map Prod.snd) with s1 | s1
  · rw [hop] at h
    exact Except.noConfusion h
  · rw [hop] at h
    rw [Except.ok.injEq] at h
    exact ⟨s1, rfl, h.symm⟩

theorem index_documents_ok_no_precompute {s s' : SimIndex} {batch : List (DocId × Vec)}
    (hpre : s.precompute = false) (h : index_documents s batch = .ok s') :
    s' = updateids { s with store := s.store ++ batch.map Prod.snd } (batch.map Prod.fst) := by
  unfold index_documents at h
  rw [hpre] at h
  simp only [Bool.false_eq_true, if_false] at h
  rw [Except.ok.injEq] at h
  rw [hpre]
  exact h.symm

theorem index_documents_error_sameMaps {s s' : SimIndex} {batch : List (DocId × Vec)}
    (h : index_documents s batch = .error s') : sameMaps s s' := by
  unfold index_documents at h
  rcases hpre : s.precompute with _ | _
  · rw [hpre] at h
    simp only [Bool.false_eq_true, if_false] at h
    exact Except.noConfusion h
  · rw [hpre] at h
    simp only [if_true] at h
    rcases hop : oldPass s (batch.map Prod.snd) with s1 | s1
    · rw [hop] at h
      rw [Except.error.injEq] at h
      rw [← h]
      exact oldPass_error_sameMaps hop
    · rw [hop] at h
      exact Except.noConfusion h

theorem index_documents_ok_WF {s s' : SimIndex} {batch : List (DocId × Vec)}
    (hwf : WF s) (h : index_documents s batch = .ok s') : WF s' := by
  rcases hpre : s.precompute with _ | _
  · rw [index_documents_ok_no_precompute hpre h]
    exact updateids_WF _ _ hwf
  · rcases index_documents_ok_precompute hpre h with ⟨s1, hop, hs'⟩
    rw [hs']
    have hwf1 : WF s1 := WF_of_sameMaps (oldPass_ok_sameMaps hop) hwf
    have hwf1' : WF { s1 with store := s1.store ++ batch.map Prod.snd } := hwf1
    have hwf2 := updateids_WF (batch.map Prod.fst) _ hwf1'
    exact WF_of_sameMaps (newPass_sameMaps batch _) hwf2

end IndexDocumentsLemmas

section FindLemmas

theorem findLoop_nil (m : Score) (k : Int) (acc : List (DocId × Score)) :
    findLoop m k [] acc = acc := rfl

theorem findLoop_cons (m : Score) (k : Int) (docid : DocId) (score : Score)
    (rest acc : List (DocId × Score)) :
    findLoop m k ((docid, score) :: rest) acc =
      if score < m ∨ (0 < k ∧ k ≤ (acc.length : Int)) then acc
      else findLoop m k rest (acc ++ [(docid, score)]) := rfl

theorem restrictAux_nil (m : Score) (b : Option Nat) : restrictAux m b [] = [] := rfl

theorem restrictAux_cons (m : Score) (b : Option Nat) (pr : DocId × Score)
    (rest : List (DocId × Score)) :
    restrictAux m b (pr :: rest) =
      if pr.2 < m then []
      else
        match b with
        | some 0 => []
        | some (n + 1) => pr :: restrictAux m (some n) rest
        | none => pr :: restrictAux m none rest := rfl

theorem findLoop_eq (m : Score) (k : Int) :
    ∀ (sims acc : List (DocId × Score)),
      findLoop m k sims acc =
        acc ++ restrictAux m (if 0 < k then some (k.toNat - acc.length) else none) sims
  | [], acc => by
    rw [findLoop_nil, restrictAux_nil, List.append_nil]
  | (docid, score) :: rest, acc => by
    rw [findLoop_cons, restrictAux_cons]
    by_cases hsc : score < m
    · rw [if_pos (Or.inl hsc)]
      simp only [hsc, if_pos]
      rw [List.append_nil]
    · simp only [if_neg hsc]
      by_cases hk : 0 < k
      · simp only [if_pos hk]
        by_cases hlen : k ≤ (acc.length : Int)
        · rw [if_pos (Or.inr ⟨hk, hlen⟩)]
          have h0 : k.toNat - acc.length = 0 := by
            have := Int.toNat_le.mpr hlen
            omega
          rw [h0]
          simp only []
          rw [List.append_nil]
        · have hcond : ¬ (score < m ∨ (0 < k ∧ k ≤ (acc.length : Int))) := by
            rintro (h | ⟨_, h⟩)
            · exact hsc h
            · exact hlen h
          rw [if_neg hcond]
          have hlt : acc.length < k.toNat := by
            rw [Int.lt_toNat]
            omega
          have hn : k.toNat - acc.length = (k.toNat - (acc.length + 1)) + 1 := by omega
          rw [hn]
          simp only []
          rw [findLoop_eq m k rest (acc ++ [(docid, score)])]
          rw [if_pos hk]
          rw [List.length_append, List.length_singleton, List.append_assoc]
          rfl
      · simp only [if_neg hk]
        have hcond : ¬ (score < m ∨ (0 < k ∧ k ≤ (acc.length : Int))) := by
          rintro (h | ⟨h, _⟩)
          · exact hsc h
          · exact hk h
        rw [if_neg hcond]
        rw [findLoop_eq m k rest (acc ++ [(docid, score)])]
        rw [if_neg hk]
        rw [List.append_assoc]
        rfl

theorem restrictAux_none (m : Score) :
    ∀ (sims : List (DocId × Score)),
      restrictAux m none sims = sims.takeWhile (fun pr => decide (m ≤ pr.2))
  | [] => rfl
  | pr :: rest => by
    rw [restrictAux_cons]
    by_cases hsc : pr.2 < m
    · have hdec : decide (m ≤ pr.2) = false := by
        rw [decide_eq_false_iff_not]
        exact Int.not_le.mpr hsc
      rw [if_pos hsc]
      simp [List.takeWhile_cons, hdec]
    · have hdec : decide (m ≤ pr.2) = true := by
        rw [decide_eq_true_eq]
        exact Int.not_lt.mp hsc
      rw [if_neg hsc]
      simp only [List.takeWhile_cons, hdec, if_true]
      rw [restrictAux_none m rest]

theorem restrictAux_some (m : Score) :
    ∀ (n : Nat) (sims : List (DocId × Score)),
      restrictAux m (some n) sims = (sims.takeWhile (fun pr => decide (m ≤ pr.2))).take n
  | n, [] => by
    rw [restrictAux_nil]
    simp
  | n, pr :: rest => by
    rw [restrictAux_cons]
    by_cases hsc : pr.2 < m
    · have hdec : decide (m ≤ pr.2) = false := by
        rw [decide_eq_false_iff_not]
        exact Int.not_le.mpr hsc
      rw [if_pos hsc]
      simp [List.takeWhile_cons, hdec]
    · have hdec : decide (m ≤ pr.2) = true := by
        rw [decide_eq_true_eq]
        exact Int.not_lt.mp hsc
      rw [if_neg hsc]
      simp only [List.takeWhile_cons, hdec, if_true]
      rcases n with _ | n
      · simp
      · simp only [List.take_succ_cons]
        rw [restrictAux_some m n rest]

theorem takeWhile_eq_filter_sorted (m : Score) :
    ∀ (sims : List (DocId × Score)), sims.Pairwise (fun a b => b.2 ≤ a.2) →
      sims.takeWhile (fun pr => decide (m ≤ pr.2)) = sims.filter (fun pr => decide (m ≤ pr.2))
  | [], _ => rfl
  | pr :: rest, h => by
    rw [List.pairwise_cons] at h
    by_cases hsc : m ≤ pr.2
    · have hdec : decide (m ≤ pr.2) = true := by
        rw [decide_eq_true_eq]
        exact hsc
      simp only [List.takeWhile_cons, List.filter_cons, hdec, if_true]
      rw [takeWhile_eq_filter_sorted m rest h.2]
    · have hdec : decide (m ≤ pr.2) = false := by
        rw [decide_eq_false_iff_not]
        exact hsc
      simp only [List.takeWhile_cons, List.filter_cons, hdec, Bool.false_eq_true, if_false]
      symm
      rw [List.filter_eq_nil_iff]
      intro a ha
      have hle : a.2 ≤ pr.2 := h.1 a ha
      show ¬ (decide (m ≤ a.2) = true)
      rw [decide_eq_true_eq]
      intro hma
      exact hsc (le_trans hma hle)

end FindLemmas

section QueryLemmas

open SimIndex

theorem WF_init (b : Bool) : WF (SimIndex.init b) := by
  refine ⟨List.Pairwise.nil, List.Pairwise.nil, ?_, ?_, ?_, rfl⟩ <;>
    exact fun e he => absurd he (List.not_mem_nil e)

theorem sims_by_id_precompute {s : SimIndex} {docid : DocId} {l : List (DocId × Score)}
    (hpre : s.precompute = true) (hl : dget docid s.id2sims = some l) :
    s.sims_by_id docid = .ok l := by
  unfold SimIndex.sims_by_id
  rw [hpre, hl]
  rfl

theorem sims_by_id_no_precompute {s : SimIndex} {docid : DocId} {pos : Nat}
    (hpre : s.precompute = false) (hpos : dget docid s.id2pos = some pos) :
    s.sims_by_id docid =
      .ok (sims2scores s.pos2id (s.store.map (fun sv => ip (s.store.getD pos []) sv))) := by
  unfold SimIndex.sims_by_id
  rw [hpre, hpos]
  rfl

theorem sims_by_id_no_precompute_missing {s : SimIndex} {docid : DocId}
    (hpre : s.precompute = false) (hpos : dget docid s.id2pos = none) :
    s.sims_by_id docid = .error () := by
  unfold SimIndex.sims_by_id
  rw [hpre, hpos]
  rfl

theorem except_map_ok {ε σ σ' : Type} (a : σ) (f : σ → σ') :
    (Except.ok a : Except ε σ).map f = .ok (f a) := rfl

end QueryLemmas

section Claims

open SimIndex

/-- Claim C1, counterexample: with precompute enabled (the default), after
indexing `a` and `b` and then `delete({"a"})`, `sims_by_id "b"` returns the
stored cache entry unchanged, and it still contains the pair `("a", 2)` even
though `"a"` has no mapping any more — the precompute read path does not
filter dead peers, refuting the claim as stated. -/
theorem C1_counterexample :
    index_documents (SimIndex.init true) [("a", [2, 0]), ("b", [1, 0])] = .ok stAB2 ∧
    SimIndex.delete stAB2 ["a"] = .ok stB ∧
    dget "a" stB.id2pos = none ∧
    stB.precompute = true ∧
    stB.sims_by_id "b" = .ok [("a", 2), ("b", 1)] ∧
    (("a", (2 : Score)) ∈ [(("a" : DocId), (2 : Score)), ("b", 1)]) := by
  exact ⟨rfl, rfl, rfl, rfl, rfl, by decide⟩

/-- Claim C1, amended: dead peers are filtered only on the `sims2scores` read
path, i.e. when precompute is disabled. For any successful `delete` whose id
list contains `A`, a subsequent non-precompute `sims_by_id(B)` never returns a
pair whose peer id is `A`. -/
theorem C1_live_filter {s s' : SimIndex} {ids : List DocId} {A B : DocId}
    {l : List (DocId × Score)}
    (hnd : (s.id2pos.map Prod.fst).Nodup)
    (hA : A ∈ ids)
    (hdel : SimIndex.delete s ids = .ok s')
    (hpre : s'.precompute = false)
    (hq : s'.sims_by_id B = .ok l) :
    ∀ pr ∈ l, pr.1 ≠ A := by
  rcases delete_ok_char hdel with ⟨m, hdl, hid2pos, hpos2id, _, _, _, _, _⟩
  have hAm : dmem A m = false := deleteLoop_removed ids s.id2pos m hnd hdl A hA
  rcases hpos : dget B s'.id2pos with _ | pos
  · rw [sims_by_id_no_precompute_missing hpre hpos] at hq
    exact Except.noConfusion hq
  · rw [sims_by_id_no_precompute hpre hpos] at hq
    rw [Except.ok.injEq] at hq
    subst hq
    intro pr hpr hcontra
    rcases sims2scores_live s'.pos2id _ pr hpr with ⟨p, hp⟩
    rw [hpos2id] at hp
    have hmem := invert_mem (dget_mem hp)
    have hT : dmem pr.1 m = true := dmem_true_of_mem hmem
    rw [hcontra, hAm] at hT
    exact Bool.noConfusion hT

/-- Witness for `C1_live_filter` at a concrete input: a non-precompute index
of `a` and `b`, delete `a`, query `b`; the ranked list is `[("b", 1)]` and its
pair `("b", 1)` indeed does not name the deleted `a`. -/
theorem C1_witness : (("b", (1 : Score)).1 : DocId) ≠ "a" := by
  have hdel : SimIndex.delete npAB ["a"] = .ok npB := rfl
  have hq : npB.sims_by_id "b" = .ok [("b", 1)] := rfl
  exact C1_live_filter (by decide) (by decide) hdel rfl hq ("b", 1) (by decide)

/-- Claim C2 is refuted by the code: the old-document update pass reads
`self.pos2id[pos]` without any membership check, so a ghost slot (here
position 1, left by `delete({"b"})`) raises a `KeyError` instead of being
skipped — `index_documents` fails on any precompute index containing a ghost
slot. -/
theorem C2_ghost_slot_failure :
    index_documents (SimIndex.init true) [("a", [2, 0]), ("b", [0, 3])] = .ok stAB ∧
    SimIndex.delete stAB ["b"] = .ok stA ∧
    dget 1 stA.pos2id = none ∧
    1 < stA.store.length ∧
    index_documents stA [("c", [1, 1])] = .error stAErr := by
  exact ⟨rfl, rfl, rfl, by decide, rfl⟩

/-- Claim C3: starting from any well-formed state, after every successful
`index_documents` and every successful `delete` the two `IdentityMap`
directions are exact inverses: `pos2id[id2pos[id]] = id` for every mapped id,
and the two directions have equal cardinality. -/
theorem C3_inverse_invariant (s : SimIndex) (hwf : WF s) :
    (∀ (batch : List (DocId × Vec)) (s' : SimIndex),
        index_documents s batch = .ok s' →
        (∀ id p, dget id s'.id2pos = some p → dget p s'.pos2id = some id) ∧
        s'.pos2id.length = s'.id2pos.length) ∧
    (∀ (ids : List DocId) (s' : SimIndex),
        SimIndex.delete s ids = .ok s' →
        (∀ id p, dget id s'.id2pos = some p → dget p s'.pos2id = some id) ∧
        s'.pos2id.length = s'.id2pos.length) := by
  constructor
  · intro batch s' h
    have hwf' := index_documents_ok_WF hwf h
    refine ⟨?_, hwf'.2.2.2.2.2⟩
    intro id p hget
    exact hwf'.2.2.1 (id, p) (dget_mem hget)
  · intro ids s' h
    rcases delete_ok_char h with ⟨m, hdl, hid, hpos, hlen, _, _, _, _⟩
    have hsub := deleteLoop_ok_sublist ids s.id2pos m hdl
    have hvnd : (m.map Prod.snd).Nodup :=
      (WF_id2pos_snd_nodup hwf).sublist (hsub.map Prod.snd)
    have hswap := invert_eq_map_swap hvnd
    constructor
    · intro id p hget
      rw [hid] at hget
      have hmem : (id, p) ∈ m := dget_mem hget
      rw [hpos, hswap]
      refine mem_dget ?_ ?_
      · rw [show (m.map (fun e => (e.2, e.1))).map Prod.fst = m.map Prod.snd from by
          rw [List.map_map]; rfl]
        exact hvnd
      · exact List.mem_map.mpr ⟨(id, p), hmem, rfl⟩
    · rw [hid, hpos, hlen]

/-- Witness for `C3_inverse_invariant`: the fresh index is well-formed, and
the inverse-mapping conclusion therefore holds after indexing a first
document into it. -/
theorem C3_witness :
    WF (SimIndex.init true) ∧
    (∀ (batch : List (DocId × Vec)) (s' : SimIndex),
        index_documents (SimIndex.init true) batch = .ok s' →
        (∀ id p, dget id s'.id2pos = some p → dget p s'.pos2id = some id) ∧
        s'.pos2id.length = s'.id2pos.length) :=
  ⟨by decide, (C3_inverse_invariant (SimIndex.init true) (by decide)).1⟩

/-- Claim C4 is refuted by the code: in the old-document update pass the raw
similarity row of an old document against the new batch is indexed by
temporary positions `0 .. len(new)-1`, yet `sims2scores` translates those
indices through the permanent `pos2id`. Indexing `c` into the `{a, b}` index
merges the pair `("a", 2)` (old id `a` wearing `c`'s score) into `a`'s cache,
and the new document's id `c` never enters the list even though its score
ranks in the top K. -/
theorem C4_new_id_never_merged :
    index_documents stAB [("c", [1, 1])] = .ok stABC ∧
    dget "a" stABC.id2sims = some [("a", 4), ("a", 2), ("b", 0)] ∧
    (∀ pr ∈ [(("a" : DocId), (4 : Score)), ("a", 2), ("b", 0)], pr.1 ≠ "c") ∧
    dget "c" stABC.id2pos = some 2 := by
  exact ⟨rfl, rfl, by decide, rfl⟩

/-- Claim C5, counterexample: a stored `SimilarityCache` entry (the entry of
`a` after indexing `c` into the `{a, b}` index) contains the document's own id
and a duplicated peer id, refuting the claimed exclusions. -/
theorem C5_counterexample :
    dget "a" stABC.id2sims = some [("a", 4), ("a", 2), ("b", 0)] ∧
    dget "a" stABC.id2pos = some 0 ∧
    (("a", (4 : Score)) ∈ [(("a" : DocId), (4 : Score)), ("a", 2), ("b", 0)]) ∧
    ¬ (([(("a" : DocId), (4 : Score)), ("a", 2), ("b", 0)].map Prod.fst).Nodup) := by
  exact ⟨rfl, rfl, by decide, by decide⟩

/-- Claim C5, amended: the guarantees hold for the lists `sims2scores`
produces (at production time): at most `TOP_SIMS` pairs, sorted descending
(not necessarily strictly), every peer id live in `pos2id`, and — when
`pos2id` maps distinct positions to distinct ids — no duplicate peer ids. The
document's own id is not excluded, and stored cache entries may later violate
liveness and duplicate-freedom (see the counterexample). -/
theorem C5_ranked_list_shape (p2i : List (Nat × DocId)) (raw : List Score)
    (hinj : ∀ e1 ∈ p2i, ∀ e2 ∈ p2i, e1.2 = e2.2 → e1.1 = e2.1) :
    (sims2scores p2i raw).length ≤ TOP_SIMS ∧
    (sims2scores p2i raw).Pairwise (fun a b => b.2 ≤ a.2) ∧
    (∀ pr ∈ sims2scores p2i raw, ∃ p, dget p p2i = some pr.1) ∧
    ((sims2scores p2i raw).map Prod.fst).Nodup :=
  ⟨sims2scores_length p2i raw, sims2scores_sorted p2i raw,
    sims2scores_live p2i raw, sims2scores_nodup p2i raw hinj⟩

/-- Witness for `C5_ranked_list_shape` at a concrete two-document map and raw
score array. -/
theorem C5_witness :
    (∀ e1 ∈ [((0 : Nat), ("a" : DocId)), (1, "b")],
      ∀ e2 ∈ [((0 : Nat), ("a" : DocId)), (1, "b")], e1.2 = e2.2 → e1.1 = e2.1) ∧
    ((sims2scores [((0 : Nat), ("a" : DocId)), (1, "b")] [3, -5]).length ≤ TOP_SIMS ∧
      (sims2scores [((0 : Nat), ("a" : DocId)), (1, "b")] [3, -5]).Pairwise
        (fun a b => b.2 ≤ a.2) ∧
      (∀ pr ∈ sims2scores [((0 : Nat), ("a" : DocId)), (1, "b")] [3, -5],
        ∃ p, dget p [((0 : Nat), ("a" : DocId)), (1, "b")] = some pr.1) ∧
      ((sims2scores [((0 : Nat), ("a" : DocId)), (1, "b")] [3, -5]).map Prod.fst).Nodup) :=
  ⟨by decide, C5_ranked_list_shape [((0 : Nat), ("a" : DocId)), (1, "b")] [3, -5] (by decide)⟩

/-- Claim C6: indexing a single document into a fresh precompute index, the
precomputed `sims_by_id` list and the live `sims_by_doc` query with the
document's own vector are identical, and the document heads its own list with
its self-similarity score, which bounds every score in the list. -/
theorem C6_roundtrip (docid : DocId) (vec : Vec) :
    ∃ s', index_documents (SimIndex.init true) [(docid, vec)] = .ok s' ∧
      s'.sims_by_id docid = .ok [(docid, |ip vec vec|)] ∧
      s'.sims_by_doc vec = [(docid, |ip vec vec|)] ∧
      (∀ pr ∈ [(docid, |ip vec vec|)], pr.2 ≤ |ip vec vec|) := by
  refine ⟨_, rfl, ?_, ?_, ?_⟩
  · refine sims_by_id_precompute rfl ?_
    show dget docid [(docid, [(docid, |ip vec vec|)])] = some [(docid, |ip vec vec|)]
    simp [dget]
  · rfl
  · intro pr hpr
    rw [List.mem_singleton] at hpr
    subst hpr
    exact le_refl _

/-- Claim C7: the claimed mapping behavior of re-adding an id (new position
installed, old position unmapped, vector slot kept) is exactly what
`updateids` does, shown here on the claim's own scenario with precompute
disabled; but under the default precompute configuration the very same
scenario raises on the ghost slot left by `delete({"b"})` before the mapping
is ever updated, so "re-indexing is not an error" fails on the code. -/
theorem C7_reindex_scenario :
    index_documents (SimIndex.init true) [("a", [1, 0]), ("b", [0, 1]), ("c", [1, 1])] =
      .ok st3 ∧
    SimIndex.delete st3 ["b"] = .ok st3d ∧
    index_documents st3d [("a", [5, 5])] = .error st3dErr ∧
    index_documents (SimIndex.init false) [("a", [1, 0]), ("b", [0, 1]), ("c", [1, 1])] =
      .ok np3 ∧
    SimIndex.delete np3 ["b"] = .ok np3d ∧
    dget "a" np3d.id2pos = some 0 ∧
    index_documents np3d [("a", [5, 5])] = .ok np3r ∧
    dget "a" np3r.id2pos = some 3 ∧
    dget 0 np3r.pos2id = none ∧
    np3r.store = [[1, 0], [0, 1], [1, 1], [5, 5]] ∧
    np3r.store.getD 0 [] = [1, 0] := by
  exact ⟨rfl, rfl, rfl, rfl, rfl, rfl, rfl, rfl, rfl, rfl, rfl⟩

/-- Claim C8: on a descending-sorted underlying ranked list, `find_similar`
returns exactly that list restricted to scores `≥ min_score` and truncated to
`max_results` when `0 < max_results`, with no truncation when
`max_results ≤ 0`. -/
theorem C8_find_similar (s : SimIndex) (q : Query) (minScore : Score) (maxResults : Int)
    (sims : List (DocId × Score))
    (hq : (match q with
           | Query.byId docid => s.sims_by_id docid
           | Query.byDoc vec => .ok (s.sims_by_doc vec)) = .ok sims)
    (hsorted : sims.Pairwise (fun a b => b.2 ≤ a.2)) :
    find_similar s q minScore maxResults =
      .ok (if 0 < maxResults
        then (sims.filter (fun pr => decide (minScore ≤ pr.2))).take maxResults.toNat
        else sims.filter (fun pr => decide (minScore ≤ pr.2))) := by
  have hloop : findLoop minScore maxResults sims [] =
      (if 0 < maxResults
        then (sims.filter (fun pr => decide (minScore ≤ pr.2))).take maxResults.toNat
        else sims.filter (fun pr => decide (minScore ≤ pr.2))) := by
    rw [findLoop_eq]
    by_cases hk : 0 < maxResults
    · rw [if_pos hk, if_pos hk, List.length_nil, Nat.sub_zero, restrictAux_some,
        takeWhile_eq_filter_sorted _ _ hsorted, List.nil_append]
    · rw [if_neg hk, if_neg hk, restrictAux_none,
        takeWhile_eq_filter_sorted _ _ hsorted, List.nil_append]
  cases q with
  | byId docid =>
    have hq' : s.sims_by_id docid = .ok sims := hq
    have hred : find_similar s (Query.byId docid) minScore maxResults =
        (s.sims_by_id docid).map (fun l => findLoop minScore maxResults l []) := rfl
    rw [hred, hq', except_map_ok, hloop]
  | byDoc vec =>
    have hq' : (Except.ok (s.sims_by_doc vec) : Except Unit (List (DocId × Score))) =
        .ok sims := hq
    rw [Except.ok.injEq] at hq'
    have hred : find_similar s (Query.byDoc vec) minScore maxResults =
        .ok (findLoop minScore maxResults (s.sims_by_doc vec) []) := rfl
    rw [hred, hq', hloop]

/-- Witness for `C8_find_similar`: querying the two-document index by id with
`min_score = 1` and `max_results = 1` keeps exactly the first qualifying
pair. -/
theorem C8_witness :
    find_similar stAB2 (Query.byId "b") 1 1 = .ok [("a", 2)] := by
  have hq : (match Query.byId "b" with
      | Query.byId docid => stAB2.sims_by_id docid
      | Query.byDoc vec => .ok (stAB2.sims_by_doc vec)) = .ok [("a", 2), ("b", 1)] := rfl
  have hs : ([(("a" : DocId), (2 : Score)), ("b", 1)]).Pairwise (fun a b => b.2 ≤ a.2) := by
    decide
  have h := C8_find_similar stAB2 (Query.byId "b") 1 1 [("a", 2), ("b", 1)] hq hs
  rw [h]
  rfl

/-- Claim C9, counterexample: `index_documents` on the ghost-slot index fails,
and the error state is not the pre-call state — `a`'s cache entry has already
been merged with the pass's (mislabelled) updates, so a failing call leaves a
partial effect behind. -/
theorem C9_counterexample :
    index_documents stA [("c", [1, 1])] = .error stAErr ∧
    stAErr ≠ stA ∧
    dget "a" stAErr.id2sims ≠ dget "a" stA.id2sims := by
  exact ⟨rfl, by decide, by decide⟩

/-- Claim C9, amended: a failing `index_documents` (which can only fail in the
old-document update pass) leaves the vector store, both identity-map
directions, the length counter and the precompute flag untouched; only
`id2sims` may hold partially merged entries. -/
theorem C9_error_preserves_maps (s s' : SimIndex) (batch : List (DocId × Vec))
    (h : index_documents s batch = .error s') :
    s'.store = s.store ∧ s'.id2pos = s.id2pos ∧ s'.pos2id = s.pos2id ∧
    s'.length = s.length ∧ s'.precompute = s.precompute := by
  obtain ⟨e1, e2, e3, e4, e5⟩ := index_documents_error_sameMaps h
  exact ⟨e4, e1, e2, e3, e5⟩

/-- Witness for `C9_error_preserves_maps` at the concrete failing run. -/
theorem C9_witness :
    stAErr.store = stA.store ∧ stAErr.id2pos = stA.id2pos ∧ stAErr.pos2id = stA.pos2id ∧
    stAErr.length = stA.length ∧ stAErr.precompute = stA.precompute := by
  have h : index_documents stA [("c", [1, 1])] = .error stAErr := rfl
  exact C9_error_preserves_maps stA stAErr [("c", [1, 1])] h

/-- Claim C10: deleting a list of ids in which `bad` is the first unmapped one
raises the `KeyError` model: the call returns an error state in which every id
iterated before `bad` has been removed from `id2pos` while `pos2id` still
equals its pre-call value — the two directions are left out of sync. -/
theorem C10_failed_delete (s : SimIndex) (pre rest : List DocId) (bad : DocId)
    (m : List (DocId × Nat))
    (hnd : (s.id2pos.map Prod.fst).Nodup)
    (hloop : deleteLoop pre s.id2pos = .ok m)
    (hbad : dmem bad m = false) :
    SimIndex.delete s (pre ++ bad :: rest) = .error { s with id2pos := m } ∧
    (∀ id ∈ pre, dmem id m = false) ∧
    ({ s with id2pos := m } : SimIndex).pos2id = s.pos2id := by
  refine ⟨?_, deleteLoop_removed pre s.id2pos m hnd hloop, rfl⟩
  unfold SimIndex.delete
  rw [deleteLoop_append pre (bad :: rest) s.id2pos m hloop, deleteLoop_cons,
    if_neg (by rw [hbad]; exact Bool.false_ne_true)]

/-- Witness for `C10_failed_delete`: `delete({"a", "zz", "b"})` on the
`{a, b}` index fails on the unmapped `"zz"` after removing `"a"`, leaving
`pos2id` untouched. -/
theorem C10_witness :
    SimIndex.delete stAB ["a", "zz", "b"] = .error { stAB with id2pos := [("b", 1)] } ∧
    (∀ id ∈ ["a"], dmem id [(("b" : DocId), (1 : Nat))] = false) ∧
    ({ stAB with id2pos := [("b", 1)] } : SimIndex).pos2id = stAB.pos2id := by
  have h1 : deleteLoop ["a"] stAB.id2pos = .ok [("b", 1)] := rfl
  exact C10_failed_delete stAB ["a"] ["b"] "zz" [("b", 1)] (by decide) h1 (by decide)

end Claims

end SimServer
